import Mathlib

set_option maxHeartbeats 1000000

/-!
Shallow embedding of the peer- and connection-management core of the
tchannel Go client (`peer.go`): `PeerList` (a tree of address-indexed
registries of `Peer`s) and `Peer` (a pool of inbound and outbound
connections to one fixed address).

Go pointer identity is modelled by indices: every `Peer` object created by a
root list lives in a world-level store `World.peerStore` and is referenced
everywhere by its index, so "identical Peer instance" is equality of
indices.  Mutating methods become functions returning the updated state.
The reader/writer mutexes of the source serialize each operation, so the
sequential embedding executes each operation atomically; in particular the
double-checked re-lookup in `Add` after the lock upgrade coincides with the
first lookup.

External collaborators that are declared but not defined in the excerpt
(the `Connection` lifecycle, the channel's `Connect` capability, a
connection's `beginCall`, and the `peerSelector` strategy) are modelled
from the spec as opaque records and caller-supplied function parameters.
-/

namespace TChan

/-- Errors of the excerpt (`ErrInvalidConnectionState`, `ErrNoPeers`) plus a
constructor for arbitrary errors produced by the external collaborators. -/
inductive TError where
  | ErrInvalidConnectionState
  | ErrNoPeers
  | external (code : Nat)
  deriving DecidableEq

/-- Modelled from the spec: the external Connection collaborator's lifecycle
state, "at least: active, start-close, closed" (the source file only names
`connectionActive` and `connectionStartClose`; `connection.go` is not part
of the excerpt). -/
inductive ConnectionState where
  | connectionActive
  | connectionStartClose
  | connectionClosed
  deriving DecidableEq

/-- Modelled from the spec: a Connection is a single physical link exposing a
read-only lifecycle state; `connId` stands for its identity. -/
structure Connection where
  connId : Nat
  state : ConnectionState
  deriving DecidableEq

/-- Modelled from the spec: `readState` is the lifecycle-state query of a
connection. -/
def Connection.readState (c : Connection) : ConnectionState := c.state

/-- Modelled from the spec: the liveness predicate of a connection — its
lifecycle state reports active. -/
def Connection.IsActive (c : Connection) : Bool :=
  decide (c.readState = ConnectionState.connectionActive)

/-- `Peer` of the source: one fixed remote address plus the inbound and
outbound connection lists.  The `channel` back-reference is passed as a
function parameter where needed instead of being stored. -/
structure Peer where
  hostPort : String
  inboundConnections : List Connection
  outboundConnections : List Connection
  deriving DecidableEq

/-- `newPeer` of the source (the `channel` argument is dropped, see `Peer`). -/
def newPeer (hostPort : String) : Peer :=
  { hostPort := hostPort, inboundConnections := [], outboundConnections := [] }

def defaultPeer : Peer := newPeer ""

/-- `HostPort` accessor of the source. -/
def Peer.HostPort (p : Peer) : String := p.hostPort

/-- `runWithConnections` of the source: apply `f` to every inbound and then
every outbound connection; the Go version runs `f` for its side effects, the
embedding collects the results in iteration order. -/
def Peer.runWithConnections (p : Peer) (f : Connection → α) : List α :=
  p.inboundConnections.map f ++ p.outboundConnections.map f

/-- `getActive` of the source: the connections (inbound first, then
outbound) whose lifecycle state reports active.  The Go loop appends each
active connection while iterating with `runWithConnections`; collecting the
iteration order and filtering yields the same list. -/
def Peer.getActive (p : Peer) : List Connection :=
  (p.runWithConnections id).filter Connection.IsActive

/-- `randConn` of the source: `conns[peerRng.Intn(len(conns))]`.  The random
source is modelled by the caller-supplied number `r`; `Intn` yields an index
below `conns.length`, modelled as `r % conns.length`. -/
def randConn (conns : List Connection) (r : Nat) : Connection :=
  conns.getD (r % conns.length) ⟨0, ConnectionState.connectionClosed⟩

/-- `AddInboundConnection` of the source: reject unless the connection state
is active or start-close, otherwise append to the inbound list.  The Go
method mutates the receiver and returns an error; the embedding returns the
error option together with the updated peer. -/
def Peer.AddInboundConnection (p : Peer) (c : Connection) : Option TError × Peer :=
  if c.readState = ConnectionState.connectionActive ∨
      c.readState = ConnectionState.connectionStartClose then
    (none, { p with inboundConnections := p.inboundConnections ++ [c] })
  else
    (some TError.ErrInvalidConnectionState, p)

/-- `AddOutboundConnection` of the source: same check, appending to the
outbound list. -/
def Peer.AddOutboundConnection (p : Peer) (c : Connection) : Option TError × Peer :=
  if c.readState = ConnectionState.connectionActive ∨
      c.readState = ConnectionState.connectionStartClose then
    (none, { p with outboundConnections := p.outboundConnections ++ [c] })
  else
    (some TError.ErrInvalidConnectionState, p)

/-- `Connect` of the source: ask the channel's Connect capability (modelled
from the spec as the parameter `connect`) for a new outbound connection to
`p.hostPort`, then register it via `AddOutboundConnection`.  The counter `σ`
counts invocations of the channel's Connect capability; it is incremented
exactly once since the capability is invoked exactly once. -/
def Peer.Connect (connect : String → Except TError Connection) (σ : Nat)
    (p : Peer) : Except TError Connection × Peer × Nat :=
  match connect p.hostPort with
  | Except.error e => (Except.error e, p, σ + 1)
  | Except.ok c =>
    match p.AddOutboundConnection c with
    | (some e, p') => (Except.error e, p', σ + 1)
    | (none, p') => (Except.ok c, p', σ + 1)

/-- `GetConnection` of the source: pick a random active connection if one
exists, otherwise make a new outgoing connection via `Connect`. -/
def Peer.GetConnection (connect : String → Except TError Connection)
    (r σ : Nat) (p : Peer) : Except TError Connection × Peer × Nat :=
  if 0 < p.getActive.length then
    (Except.ok (randConn p.getActive r), p, σ)
  else
    p.Connect connect σ

/-- Modelled from the spec: opaque call options; only their identity matters
to the core. -/
structure CallOptions where
  format : Nat
  deriving DecidableEq

/-- Modelled from the spec: the default call options substituted when the
caller passes nil. -/
def defaultCallOptions : CallOptions := { format := 0 }

/-- Modelled from the spec: the opaque result of a connection's
call-initiation operation. -/
structure OutboundCall where
  callId : Nat
  deriving DecidableEq

/-- `BeginCall` of the source: resolve a connection via `GetConnection`,
substitute the default call options when the given ones are nil, and forward
to the connection's call initiation (modelled from the spec as the parameter
`beginCall`, applied in the source's argument order `ctx, serviceName,
callOptions, operationName` with the context dropped). -/
def Peer.BeginCall (connect : String → Except TError Connection)
    (beginCall : Connection → String → CallOptions → String → Except TError OutboundCall)
    (r σ : Nat) (p : Peer) (serviceName operationName : String)
    (callOptions : Option CallOptions) : Except TError OutboundCall × Peer × Nat :=
  match p.GetConnection connect r σ with
  | (Except.error e, p', σ') => (Except.error e, p', σ')
  | (Except.ok conn, p', σ') =>
    match beginCall conn serviceName (callOptions.getD defaultCallOptions) operationName with
    | Except.error e => (Except.error e, p', σ')
    | Except.ok call => (Except.ok call, p', σ')

/-- `Close` of the source (`Peer`): run `Close` on every inbound and then
every outbound connection via `runWithConnections`.  A connection's own
`Close` is external; the embedding returns the list of connections it was
invoked on, in invocation order, together with the (unchanged) peer — the
connection lists are not cleared. -/
def Peer.Close (p : Peer) : List Connection × Peer :=
  (p.runWithConnections id, p)

/-- Association-list lookup standing for the Go map read
`l.peersByHostPort[hostPort]`; insertions cons a fresh key to the front. -/
def lookupA : List (String × Nat) → String → Option Nat
  | [], _ => none
  | ap :: rest, a => if ap.1 = a then some ap.2 else lookupA rest a

/-- `PeerList` of the source.  `parent` refers to another list by index
(`none` iff this list is a root), the map is an association list from
address to peer index, `peers` is the insertion-ordered sequence of peer
indices.  The `channel` reference and the `peerSelector` (external strategy,
not part of the excerpt) are passed as parameters where needed. -/
structure PeerList where
  parent : Option Nat
  peersByHostPort : List (String × Nat)
  peers : List Nat

def defaultPeerList : PeerList :=
  { parent := none, peersByHostPort := [], peers := [] }

/-- The mutable heap: every `PeerList` and every root-created `Peer`,
referenced by index (standing for Go pointers). -/
structure World where
  lists : List PeerList
  peerStore : List Peer

def emptyWorld : World := { lists := [], peerStore := [] }

def World.getList (w : World) (l : Nat) : PeerList :=
  w.lists.getD l defaultPeerList

/-- `newPeerList` of the source: a fresh root list (no parent, empty index);
returns the new list's index. -/
def newPeerListW (w : World) : Nat × World :=
  (w.lists.length, { w with lists := w.lists ++ [defaultPeerList] })

/-- `newSibling` of the source: a fresh list whose parent is the creator's
parent.  Note that the sibling of a root list therefore has no parent and is
itself a root. -/
def newSiblingW (w : World) (l : Nat) : Nat × World :=
  (w.lists.length,
   { w with lists := w.lists ++ [{ defaultPeerList with parent := (w.getList l).parent }] })

/-- `newChild` of the source: a fresh list whose parent is the creator. -/
def newChildW (w : World) (l : Nat) : Nat × World :=
  (w.lists.length,
   { w with lists := w.lists ++ [{ defaultPeerList with parent := some l }] })

/-- `Add` of the source, fuel-indexed.  Sequentially: look the address up
(the optimistic read-locked check and the re-check under the write lock
coincide); if absent, a root list creates and stores a fresh `Peer` while a
non-root list delegates to its parent's `Add`; either way the resulting peer
is indexed locally (map insert plus append to the ordered sequence).  In
every reachable world a parent's index is strictly smaller than its child's
(parents are created first), so the recursion descends along strictly
decreasing list indices: the guard `par < l` never fails and the fuel
`l + 1` used by `addW` never runs out. -/
def addFuel : Nat → World → Nat → String → Nat × World
  | 0, w, _, _ => (0, w)
  | Nat.succ fuel, w, l, hostPort =>
    match lookupA (w.getList l).peersByHostPort hostPort with
    | some p => (p, w)
    | none =>
      match (w.getList l).parent with
      | none =>
        let pid := w.peerStore.length
        let pl := { w.getList l with
                    peersByHostPort := (hostPort, pid) :: (w.getList l).peersByHostPort,
                    peers := (w.getList l).peers ++ [pid] }
        (pid, { lists := w.lists.set l pl, peerStore := w.peerStore ++ [newPeer hostPort] })
      | some par =>
        if par < l then
          let res := addFuel fuel w par hostPort
          let pl := { res.2.getList l with
                      peersByHostPort := (hostPort, res.1) :: (res.2.getList l).peersByHostPort,
                      peers := (res.2.getList l).peers ++ [res.1] }
          (res.1, { res.2 with lists := res.2.lists.set l pl })
        else (0, w)

/-- `Add` of the source, on list `l` of world `w`. -/
def addW (w : World) (l : Nat) (hostPort : String) : Nat × World :=
  addFuel (l + 1) w l hostPort

/-- `GetOrAdd` of the source: return the locally indexed peer if present,
otherwise fall through to `Add`. -/
def getOrAddW (w : World) (l : Nat) (hostPort : String) : Nat × World :=
  match lookupA (w.getList l).peersByHostPort hostPort with
  | some p => (p, w)
  | none => addW w l hostPort

/-- `Get` of the source: fail with `ErrNoPeers` on an empty list, otherwise
delegate the choice to the selection strategy over the ordered peer
sequence.  The strategy (`peerSelector.choosePeer`, external and not part of
the excerpt) is modelled from the spec as the parameter `choose`.  The
method only reads under the read lock; the world is returned unchanged. -/
def getW (choose : List Nat → Nat) (w : World) (l : Nat) :
    Except TError Nat × World :=
  if (w.getList l).peers.length = 0 then
    (Except.error TError.ErrNoPeers, w)
  else
    (Except.ok (choose (w.getList l).peers), w)

/-- `Close` of the source (`PeerList`): call `Close` on every peer in the
ordered sequence.  The embedding returns, per indexed peer, the pair of its
index and the connections its `Close` was invoked on; the index itself is
not mutated. -/
def closePeerList (w : World) (l : Nat) : List (Nat × List Connection) × World :=
  ((w.getList l).peers.map
     (fun pid => (pid, ((w.peerStore.getD pid defaultPeer).Close).1)), w)

/-- `Copy` of the source: a snapshot of the address-to-peer index. -/
def copyW (w : World) (l : Nat) : List (String × Nat) :=
  (w.getList l).peersByHostPort

/-- Boolean check that an optional parent index is below `l`. -/
def parentLt (o : Option Nat) (l : Nat) : Bool :=
  match o with
  | none => true
  | some par => decide (par < l)

/-- Well-formedness of the list at index `l`: the parent was created before
the list; map keys are unique; the map values are exactly the ordered peer
sequence (newest first); every indexed peer exists in the store and was
created with the key it is indexed under; a non-root list's bindings all
appear identically in its parent. -/
def WFL (w : World) (l : Nat) : Prop :=
  parentLt (w.getList l).parent l = true ∧
  ((w.getList l).peersByHostPort.map Prod.fst).Nodup ∧
  (w.getList l).peersByHostPort.map Prod.snd = (w.getList l).peers.reverse ∧
  (∀ ap ∈ (w.getList l).peersByHostPort,
     ap.2 < w.peerStore.length ∧ (w.peerStore.getD ap.2 defaultPeer).hostPort = ap.1) ∧
  (∀ par, (w.getList l).parent = some par →
     ∀ ap ∈ (w.getList l).peersByHostPort,
       lookupA (w.getList par).peersByHostPort ap.1 = some ap.2)

/-- Well-formedness of a world: every list satisfies `WFL`. -/
def WF (w : World) : Prop :=
  ∀ l, l < w.lists.length → WFL w l

/-- The worlds reachable from the empty world by creating lists and adding
addresses. -/
inductive Reachable : World → Prop where
  | init : Reachable emptyWorld
  | newList {w} : Reachable w → Reachable (newPeerListW w).2
  | newSib {w l} : Reachable w → l < w.lists.length → Reachable (newSiblingW w l).2
  | newChl {w l} : Reachable w → l < w.lists.length → Reachable (newChildW w l).2
  | add {w l a} : Reachable w → l < w.lists.length → Reachable (addW w l a).2
  | getOrAdd {w l a} : Reachable w → l < w.lists.length → Reachable (getOrAddW w l a).2

/-- Fuel-indexed ascent to the root of a list's parent chain, with the same
guard and fuel discipline as `addFuel`. -/
def rootOfFuel : Nat → World → Nat → Nat
  | 0, _, l => l
  | Nat.succ fuel, w, l =>
    match (w.getList l).parent with
    | none => l
    | some par => if par < l then rootOfFuel fuel w par else l

/-- The root of the tree containing list `l`. -/
def rootOf (w : World) (l : Nat) : Nat :=
  rootOfFuel (l + 1) w l

/-- The list at index `l` with the binding `a ↦ pid` inserted (map insert
plus append to the ordered sequence), as performed by both branches of
`Add`. -/
def insertPL (w : World) (l pid : Nat) (a : String) : PeerList :=
  { w.getList l with
    peersByHostPort := (a, pid) :: (w.getList l).peersByHostPort,
    peers := (w.getList l).peers ++ [pid] }

/-- The world with the binding `a ↦ pid` inserted into list `l`. -/
def insertW (w : World) (l pid : Nat) (a : String) : World :=
  { w with lists := w.lists.set l (insertPL w l pid a) }

instance instDecWFL (w : World) (l : Nat) : Decidable (WFL w l) := by
  unfold WFL; infer_instance

instance instDecWF (w : World) : Decidable (WF w) := by
  unfold WF; infer_instance




theorem getD_set_eq {α : Type} (xs : List α) (i : Nat) (x d : α) (h : i < xs.length) :
    (xs.set i x).getD i d = x := by
  induction xs generalizing i with
  | nil => simp at h
  | cons y ys ih =>
    cases i with
    | zero => rfl
    | succ n => simpa using ih n (by simpa using h)

theorem getD_set_ne {α : Type} (xs : List α) (i j : Nat) (x d : α) (h : i ≠ j) :
    (xs.set i x).getD j d = xs.getD j d := by
  induction xs generalizing i j with
  | nil => rfl
  | cons y ys ih =>
    cases i with
    | zero =>
      cases j with
      | zero => exact absurd rfl h
      | succ m => rfl
    | succ n =>
      cases j with
      | zero => rfl
      | succ m => simpa using ih n m (by omega)

theorem getD_append_left {α : Type} (xs ys : List α) (j : Nat) (d : α)
    (h : j < xs.length) : (xs ++ ys).getD j d = xs.getD j d := by
  induction xs generalizing j with
  | nil => simp at h
  | cons y yt ih =>
    cases j with
    | zero => rfl
    | succ m => simpa using ih m (by simpa using h)

theorem getD_append_length {α : Type} (xs : List α) (x d : α) :
    (xs ++ [x]).getD xs.length d = x := by
  induction xs with
  | nil => rfl
  | cons y yt ih => exact ih

theorem getD_mem {α : Type} (xs : List α) (j : Nat) (d : α) (h : j < xs.length) :
    xs.getD j d ∈ xs := by
  induction xs generalizing j with
  | nil => simp at h
  | cons y yt ih =>
    cases j with
    | zero => exact List.mem_cons_self _ _
    | succ m => exact List.mem_cons_of_mem _ (ih m (by simpa using h))

theorem lookupA_cons_self (a : String) (p : Nat) (m : List (String × Nat)) :
    lookupA ((a, p) :: m) a = some p := by
  simp [lookupA]

theorem lookupA_cons_ne (a b : String) (p : Nat) (m : List (String × Nat)) (h : a ≠ b) :
    lookupA ((a, p) :: m) b = lookupA m b := by
  simp [lookupA, h]

theorem lookupA_eq_none (m : List (String × Nat)) (a : String) :
    lookupA m a = none ↔ ∀ ap ∈ m, ap.1 ≠ a := by
  induction m with
  | nil => simp [lookupA]
  | cons ap rest ih =>
    by_cases h : ap.1 = a
    · simp [lookupA, h]
    · simp [lookupA, h, ih]

theorem lookupA_mem {m : List (String × Nat)} {a : String} {p : Nat}
    (h : lookupA m a = some p) : (a, p) ∈ m := by
  induction m with
  | nil => simp [lookupA] at h
  | cons ap rest ih =>
    rcases ap with ⟨k, v⟩
    by_cases hh : k = a
    · subst hh
      rw [lookupA_cons_self] at h
      cases h
      exact List.mem_cons_self _ _
    · rw [lookupA_cons_ne _ _ _ _ hh] at h
      exact List.mem_cons_of_mem _ (ih h)


theorem set_oob {α : Type} (xs : List α) (i : Nat) (x : α) (h : xs.length ≤ i) :
    xs.set i x = xs := by
  induction xs generalizing i with
  | nil => rfl
  | cons y ys ih =>
    cases i with
    | zero => simp at h
    | succ n => simp [List.set, ih n (by simpa using h)]

theorem getD_set_cases {α : Type} (xs : List α) (i j : Nat) (x d : α) :
    (xs.set i x).getD j d = if i = j ∧ i < xs.length then x else xs.getD j d := by
  by_cases h1 : i = j
  · subst h1
    by_cases h2 : i < xs.length
    · simp [h2, getD_set_eq _ _ _ _ h2]
    · simp [h2, set_oob _ _ _ (Nat.le_of_not_lt h2)]
  · simp [h1, getD_set_ne _ _ _ _ _ h1]

theorem addFuel_lists_length (fuel : Nat) : ∀ (w : World) (l : Nat) (a : String),
    ((addFuel fuel w l a).2).lists.length = w.lists.length := by
  induction fuel with
  | zero => intro w l a; rfl
  | succ k ih =>
    intro w l a
    simp only [addFuel]
    split
    · rfl
    · split
      · simp [World.getList]
      · split
        · simpa using ih w _ a
        · rfl

theorem addFuel_parent (fuel : Nat) : ∀ (w : World) (l : Nat) (a : String) (j : Nat),
    (((addFuel fuel w l a).2).getList j).parent = (w.getList j).parent := by
  induction fuel with
  | zero => intro w l a j; rfl
  | succ k ih =>
    intro w l a j
    simp only [addFuel]
    split
    · rfl
    · split
      · -- root branch
        show ((w.lists.set l _).getD j defaultPeerList).parent = _
        rw [getD_set_cases]
        split
        · next hc =>
            rcases hc with ⟨hc1, _⟩
            subst hc1
            rfl
        · rfl
      · split
        · -- delegate branch
          show ((((addFuel k w _ a).2).lists.set l _).getD j defaultPeerList).parent = _
          rw [getD_set_cases]
          split
          · next hc =>
              rcases hc with ⟨hc1, _⟩
              subst hc1
              simpa using ih w _ a l
          · exact ih w _ a j
        · rfl

theorem addFuel_frame_gt (fuel : Nat) : ∀ (w : World) (l : Nat) (a : String) (j : Nat),
    l < j → ((addFuel fuel w l a).2).getList j = w.getList j := by
  induction fuel with
  | zero => intro w l a j _; rfl
  | succ k ih =>
    intro w l a j hj
    simp only [addFuel]
    split
    · rfl
    · split
      · show ((w.lists.set l _).getD j defaultPeerList) = _
        rw [getD_set_cases]
        split
        · next hc => omega
        · rfl
      · split
        · next par hpar hlt =>
            show ((((addFuel k w par a).2).lists.set l _).getD j defaultPeerList) = _
            rw [getD_set_cases]
            split
            · next hc => omega
            · exact ih w par a j (by omega)
        · rfl

theorem addFuel_store_ext (fuel : Nat) : ∀ (w : World) (l : Nat) (a : String),
    ∃ ext, ((addFuel fuel w l a).2).peerStore = w.peerStore ++ ext := by
  induction fuel with
  | zero => intro w l a; exact ⟨[], by simp [addFuel]⟩
  | succ k ih =>
    intro w l a
    simp only [addFuel]
    split
    · exact ⟨[], by simp⟩
    · split
      · exact ⟨[newPeer a], rfl⟩
      · split
        · next par hpar hlt => simpa using ih w par a
        · exact ⟨[], by simp⟩


theorem addFuel_lookup_self (fuel : Nat) : ∀ (w : World) (l : Nat) (a : String),
    WF w → l < fuel → l < w.lists.length →
    lookupA (((addFuel fuel w l a).2).getList l).peersByHostPort a =
      some (addFuel fuel w l a).1 := by
  induction fuel with
  | zero => intro w l a _ h _; omega
  | succ k ih =>
    intro w l a hwf hfuel hlen
    simp only [addFuel]
    split
    · next p hlook => exact hlook
    · next hlook =>
      split
      · next hpar =>
        show lookupA ((w.lists.set l _).getD l defaultPeerList).peersByHostPort a = _
        rw [getD_set_cases, if_pos ⟨rfl, hlen⟩]
        exact lookupA_cons_self _ _ _
      · next par hpar =>
        split
        · next hlt =>
          show lookupA ((((addFuel k w par a).2).lists.set l _).getD l defaultPeerList).peersByHostPort a = _
          rw [getD_set_cases, if_pos ⟨rfl, by rw [addFuel_lists_length]; exact hlen⟩]
          exact lookupA_cons_self _ _ _
        · next hnlt =>
          exfalso
          have h1 := (hwf l hlen).1
          rw [hpar] at h1
          simp [parentLt] at h1
          omega

theorem storeExt_WF (w : World) (ext : List Peer) (hwf : WF w) :
    WF { w with peerStore := w.peerStore ++ ext } := by
  intro j hj
  have hj' : j < w.lists.length := by simpa using hj
  have hold := hwf j hj'
  have hget : World.getList { w with peerStore := w.peerStore ++ ext } j = w.getList j := rfl
  refine ⟨?_, ?_, ?_, ?_, ?_⟩
  · rw [hget]; exact hold.1
  · rw [hget]; exact hold.2.1
  · rw [hget]; exact hold.2.2.1
  · rw [hget]
    intro ap hap
    have h4 := hold.2.2.2.1 ap hap
    constructor
    · show ap.2 < (w.peerStore ++ ext).length
      simp
      omega
    · show ((w.peerStore ++ ext).getD ap.2 defaultPeer).hostPort = ap.1
      rw [getD_append_left _ _ _ _ h4.1]
      exact h4.2
  · rw [hget]
    intro par hp ap hap
    exact hold.2.2.2.2 par hp ap hap


theorem insertW_getList_ne (w : World) (l pid : Nat) (a : String) (j : Nat)
    (hne : j ≠ l) : (insertW w l pid a).getList j = w.getList j := by
  show (w.lists.set l _).getD j defaultPeerList = _
  rw [getD_set_cases]
  rw [if_neg (by intro hc; exact hne hc.1.symm)]
  rfl

theorem insertW_getList_self (w : World) (l pid : Nat) (a : String)
    (hlen : l < w.lists.length) :
    (insertW w l pid a).getList l = insertPL w l pid a := by
  show (w.lists.set l _).getD l defaultPeerList = _
  rw [getD_set_cases, if_pos ⟨rfl, hlen⟩]

theorem insertW_peerStore (w : World) (l pid : Nat) (a : String) :
    (insertW w l pid a).peerStore = w.peerStore := rfl

theorem insertW_lists_length (w : World) (l pid : Nat) (a : String) :
    (insertW w l pid a).lists.length = w.lists.length := by
  show (w.lists.set l _).length = _
  simp

theorem insert_WF_general (w : World) (l pid : Nat) (a : String)
    (hwf : WF w) (hlen : l < w.lists.length)
    (hlook : lookupA (w.getList l).peersByHostPort a = none)
    (hpid : pid < w.peerStore.length)
    (hhp : (w.peerStore.getD pid defaultPeer).hostPort = a)
    (hparentok : ∀ par, (w.getList l).parent = some par →
        lookupA (w.getList par).peersByHostPort a = some pid) :
    WF (insertW w l pid a) := by
  have hkey : ∀ ap ∈ (w.getList l).peersByHostPort, ap.1 ≠ a :=
    (lookupA_eq_none _ _).mp hlook
  intro j hj
  have hj' : j < w.lists.length := by
    rw [insertW_lists_length] at hj
    exact hj
  by_cases hjl : j = l
  · subst hjl
    have hold := hwf j hj'
    rw [WFL, insertW_getList_self w j pid a hj', insertW_peerStore, insertPL]
    refine ⟨?_, ?_, ?_, ?_, ?_⟩
    · exact hold.1
    · refine List.Nodup.cons ?_ hold.2.1
      intro hmem
      rcases List.mem_map.mp hmem with ⟨ap, hap, hap1⟩
      exact hkey ap hap hap1
    · show pid :: _ = _
      rw [hold.2.2.1]
      simp
    · intro ap hap
      rcases List.mem_cons.mp hap with h | h
      · subst h
        exact ⟨hpid, hhp⟩
      · exact hold.2.2.2.1 ap h
    · intro par hp ap hap
      have hp' : (w.getList j).parent = some par := hp
      have hparlt : par < j := by
        have h1 := hold.1
        rw [hp'] at h1
        simpa [parentLt] using h1
      rw [insertW_getList_ne w j pid a par (by omega)]
      rcases List.mem_cons.mp hap with h | h
      · subst h
        exact hparentok par hp'
      · exact hold.2.2.2.2 par hp' ap h
  · have hold := hwf j hj'
    rw [WFL, insertW_getList_ne w l pid a j hjl, insertW_peerStore]
    refine ⟨hold.1, hold.2.1, hold.2.2.1, hold.2.2.2.1, ?_⟩
    intro par hp ap hap
    have holdpar := hold.2.2.2.2 par hp ap hap
    by_cases hpl : par = l
    · subst hpl
      rw [insertW_getList_self w par pid a hlen, insertPL]
      have hne : ap.1 ≠ a := by
        intro heq
        rw [heq, hlook] at holdpar
        cases holdpar
      show lookupA ((a, pid) :: _) ap.1 = _
      rw [lookupA_cons_ne _ _ _ _ (fun h => hne h.symm)]
      exact holdpar
    · rw [insertW_getList_ne w l pid a par hpl]
      exact holdpar


theorem addFuel_WF (fuel : Nat) : ∀ (w : World) (l : Nat) (a : String),
    WF w → l < fuel → l < w.lists.length → WF ((addFuel fuel w l a).2) := by
  induction fuel with
  | zero => intro w l a _ h _; omega
  | succ k ih =>
    intro w l a hwf hfuel hlen
    simp only [addFuel]
    split
    · exact hwf
    · next hlook =>
      split
      · next hpar =>
        have hwf1 : WF { w with peerStore := w.peerStore ++ [newPeer a] } :=
          storeExt_WF w [newPeer a] hwf
        have hres := insert_WF_general { w with peerStore := w.peerStore ++ [newPeer a] }
          l w.peerStore.length a hwf1 hlen hlook
          (by show w.peerStore.length < (w.peerStore ++ [newPeer a]).length; simp)
          (by show ((w.peerStore ++ [newPeer a]).getD w.peerStore.length defaultPeer).hostPort = a
              rw [getD_append_length]
              rfl)
          (by intro par hp
              rw [show ({ w with peerStore := w.peerStore ++ [newPeer a] } : World).getList l
                    = w.getList l from rfl] at hp
              rw [hpar] at hp
              cases hp)
        exact hres
      · next par hpar =>
        split
        · next hlt =>
          have hpark : par < k := by omega
          have hparlen : par < w.lists.length := by omega
          have hwf2 : WF (addFuel k w par a).2 := ih w par a hwf hpark hparlen
          have hlen2 : l < (addFuel k w par a).2.lists.length := by
            rw [addFuel_lists_length]
            exact hlen
          have hsame : (addFuel k w par a).2.getList l = w.getList l :=
            addFuel_frame_gt k w par a l hlt
          have hbind : lookupA ((addFuel k w par a).2.getList par).peersByHostPort a =
              some (addFuel k w par a).1 :=
            addFuel_lookup_self k w par a hwf hpark hparlen
          have hparlen2 : par < (addFuel k w par a).2.lists.length := by
            rw [addFuel_lists_length]
            exact hparlen
          have hprops := (hwf2 par hparlen2).2.2.2.1 _ (lookupA_mem hbind)
          have hres := insert_WF_general (addFuel k w par a).2 l (addFuel k w par a).1 a
            hwf2 hlen2 (by rw [hsame]; exact hlook) hprops.1 hprops.2
            (by intro q hq
                rw [hsame, hpar] at hq
                cases hq
                exact hbind)
          exact hres
        · exact hwf


theorem appendList_WF (w : World) (npl : PeerList)
    (hwf : WF w)
    (hpar : parentLt npl.parent w.lists.length = true)
    (hmap : npl.peersByHostPort = []) (hpeers : npl.peers = []) :
    WF { w with lists := w.lists ++ [npl] } := by
  intro j hj
  have hj' : j < w.lists.length + 1 := by simpa using hj
  have hgetlow : ∀ i, i < w.lists.length →
      World.getList { w with lists := w.lists ++ [npl] } i = w.getList i := by
    intro i hi
    show (w.lists ++ [npl]).getD i defaultPeerList = _
    rw [getD_append_left _ _ _ _ hi]
    rfl
  by_cases hcase : j < w.lists.length
  · have hold := hwf j hcase
    rw [WFL, hgetlow j hcase]
    refine ⟨hold.1, hold.2.1, hold.2.2.1, hold.2.2.2.1, ?_⟩
    intro par hp ap hap
    have hparlt : par < j := by
      have h1 := hold.1
      rw [hp] at h1
      simpa [parentLt] using h1
    rw [hgetlow par (by omega)]
    exact hold.2.2.2.2 par hp ap hap
  · have hjeq : j = w.lists.length := by omega
    subst hjeq
    have hgetnew : World.getList { w with lists := w.lists ++ [npl] } w.lists.length = npl := by
      show (w.lists ++ [npl]).getD w.lists.length defaultPeerList = _
      exact getD_append_length _ _ _
    rw [WFL, hgetnew, hmap, hpeers]
    refine ⟨hpar, by simp, by simp, by simp, ?_⟩
    intro par _ ap hap
    simp at hap

theorem newPeerList_WF (w : World) (hwf : WF w) : WF (newPeerListW w).2 := by
  exact appendList_WF w defaultPeerList hwf rfl rfl rfl

theorem newSibling_WF (w : World) (l : Nat) (hwf : WF w) (hlen : l < w.lists.length) :
    WF (newSiblingW w l).2 := by
  refine appendList_WF w _ hwf ?_ rfl rfl
  show parentLt (w.getList l).parent w.lists.length = true
  cases hp : (w.getList l).parent with
  | none => rfl
  | some q =>
    have h1 := (hwf l hlen).1
    rw [hp] at h1
    have : q < l := by simpa [parentLt] using h1
    simp [parentLt]
    omega

theorem newChild_WF (w : World) (l : Nat) (hwf : WF w) (hlen : l < w.lists.length) :
    WF (newChildW w l).2 := by
  refine appendList_WF w _ hwf ?_ rfl rfl
  show parentLt (some l) w.lists.length = true
  simp [parentLt]
  omega

theorem getOrAddW_eq_addW (w : World) (l : Nat) (a : String) :
    getOrAddW w l a = addW w l a := by
  rw [getOrAddW]
  cases hlook : lookupA (w.getList l).peersByHostPort a with
  | none => rfl
  | some p =>
    rw [addW]
    simp only [addFuel, hlook]

theorem addW_WF (w : World) (l : Nat) (a : String) (hwf : WF w)
    (hlen : l < w.lists.length) : WF (addW w l a).2 :=
  addFuel_WF (l + 1) w l a hwf (by omega) hlen

theorem reachable_WF {w : World} (h : Reachable w) : WF w := by
  induction h with
  | init =>
    intro l hl
    simp [emptyWorld] at hl
  | newList _ ih => exact newPeerList_WF _ ih
  | newSib _ hlen ih => exact newSibling_WF _ _ ih hlen
  | newChl _ hlen ih => exact newChild_WF _ _ ih hlen
  | add _ hlen ih => exact addW_WF _ _ _ ih hlen
  | getOrAdd _ hlen ih =>
    rw [getOrAddW_eq_addW]
    exact addW_WF _ _ _ ih hlen


theorem rootOfFuel_le (fuel : Nat) : ∀ (w : World) (l : Nat), rootOfFuel fuel w l ≤ l := by
  induction fuel with
  | zero => intro w l; exact Nat.le_refl l
  | succ k ih =>
    intro w l
    simp only [rootOfFuel]
    split
    · exact Nat.le_refl l
    · split
      · next par hp hlt => exact Nat.le_trans (ih w par) (Nat.le_of_lt hlt)
      · exact Nat.le_refl l

theorem rootOfFuel_irrel (fuel : Nat) : ∀ (f2 : Nat) (w : World) (l : Nat),
    WF w → l < w.lists.length → l < fuel → l < f2 →
    rootOfFuel fuel w l = rootOfFuel f2 w l := by
  induction fuel with
  | zero => intro f2 w l _ _ h _; omega
  | succ k ih =>
    intro f2 w l hwf hlen hf hf2
    cases f2 with
    | zero => omega
    | succ k2 =>
      cases hp : (w.getList l).parent with
      | none => simp only [rootOfFuel, hp]
      | some par =>
        have hlt : par < l := by
          have h1 := (hwf l hlen).1
          rw [hp] at h1
          simpa [parentLt] using h1
        simp only [rootOfFuel, hp, if_pos hlt]
        exact ih k2 w par hwf (by omega) (by omega) (by omega)

theorem rootOf_parent_none (w : World) (l : Nat)
    (hp : (w.getList l).parent = none) : rootOf w l = l := by
  rw [rootOf]
  simp only [rootOfFuel, hp]

theorem rootOf_parent_step (w : World) (l par : Nat) (hwf : WF w)
    (hlen : l < w.lists.length) (hp : (w.getList l).parent = some par) :
    rootOf w l = rootOf w par := by
  have hlt : par < l := by
    have h1 := (hwf l hlen).1
    rw [hp] at h1
    simpa [parentLt] using h1
  rw [rootOf, rootOf]
  show rootOfFuel (l + 1) w l = _
  simp only [rootOfFuel, hp, if_pos hlt]
  exact rootOfFuel_irrel l (par + 1) w par hwf (by omega) (by omega) (by omega)

theorem rootOfFuel_congr (w w2 : World)
    (hsame : ∀ j, (w2.getList j).parent = (w.getList j).parent) :
    ∀ (fuel : Nat) (l : Nat), rootOfFuel fuel w2 l = rootOfFuel fuel w l := by
  intro fuel
  induction fuel with
  | zero => intro l; rfl
  | succ k ih =>
    intro l
    cases hp : (w.getList l).parent with
    | none => simp only [rootOfFuel, hsame l, hp]
    | some par =>
      simp only [rootOfFuel, hsame l, hp]
      split
      · exact ih par
      · rfl

theorem rootOf_congr (w w2 : World)
    (hsame : ∀ j, (w2.getList j).parent = (w.getList j).parent) (l : Nat) :
    rootOf w2 l = rootOf w l :=
  rootOfFuel_congr w w2 hsame (l + 1) l

theorem lookup_rootOf (fuel : Nat) : ∀ (w : World) (l : Nat) (a : String) (p : Nat),
    WF w → l < w.lists.length → l < fuel →
    lookupA (w.getList l).peersByHostPort a = some p →
    lookupA (w.getList (rootOfFuel fuel w l)).peersByHostPort a = some p := by
  induction fuel with
  | zero => intro w l a p _ _ h _; omega
  | succ k ih =>
    intro w l a p hwf hlen hf h
    cases hp : (w.getList l).parent with
    | none =>
      simp only [rootOfFuel, hp]
      exact h
    | some par =>
      have hlt : par < l := by
        have h1 := (hwf l hlen).1
        rw [hp] at h1
        simpa [parentLt] using h1
      simp only [rootOfFuel, hp, if_pos hlt]
      refine ih w par a p hwf (by omega) (by omega) ?_
      exact (hwf l hlen).2.2.2.2 par hp (a, p) (lookupA_mem h)

theorem addFuel_result_of_root (fuel : Nat) : ∀ (w : World) (l : Nat) (a : String) (p : Nat),
    WF w → l < fuel → l < w.lists.length →
    lookupA (w.getList (rootOf w l)).peersByHostPort a = some p →
    (addFuel fuel w l a).1 = p := by
  induction fuel with
  | zero => intro w l a p _ h _ _; omega
  | succ k ih =>
    intro w l a p hwf hf hlen hroot
    simp only [addFuel]
    split
    · next q hlook =>
      have := lookup_rootOf (l + 1) w l a q hwf hlen (by omega) hlook
      rw [rootOf] at hroot
      rw [this] at hroot
      exact (Option.some.inj hroot)
    · next hlook =>
      split
      · next hpar =>
        exfalso
        rw [rootOf_parent_none w l hpar] at hroot
        rw [hlook] at hroot
        cases hroot
      · next par hpar =>
        split
        · next hlt =>
          refine ih w par a p hwf (by omega) (by omega) ?_
          rw [← rootOf_parent_step w l par hwf hlen hpar]
          exact hroot
        · next hnlt =>
          exfalso
          have h1 := (hwf l hlen).1
          rw [hpar] at h1
          simp [parentLt] at h1
          omega

theorem addFuel_root_binding (fuel : Nat) : ∀ (w : World) (l : Nat) (a : String),
    WF w → l < fuel → l < w.lists.length →
    lookupA (((addFuel fuel w l a).2).getList (rootOf w l)).peersByHostPort a =
      some (addFuel fuel w l a).1 := by
  induction fuel with
  | zero => intro w l a _ h _; omega
  | succ k ih =>
    intro w l a hwf hf hlen
    simp only [addFuel]
    split
    · next p hlook => exact lookup_rootOf (l + 1) w l a p hwf hlen (by omega) hlook
    · next hlook =>
      split
      · next hpar =>
        rw [rootOf_parent_none w l hpar]
        show lookupA ((w.lists.set l _).getD l defaultPeerList).peersByHostPort a = _
        rw [getD_set_cases, if_pos ⟨rfl, hlen⟩]
        exact lookupA_cons_self _ _ _
      · next par hpar =>
        split
        · next hlt =>
          rw [rootOf_parent_step w l par hwf hlen hpar]
          have hrle : rootOf w par ≤ par := rootOfFuel_le (par + 1) w par
          have hne : rootOf w par ≠ l := by omega
          show lookupA ((((addFuel k w par a).2).lists.set l _).getD (rootOf w par)
            defaultPeerList).peersByHostPort a = _
          rw [getD_set_cases]
          rw [if_neg (by intro hc; exact hne hc.1.symm)]
          exact ih w par a hwf (by omega) (by omega)
        · next hnlt =>
          exfalso
          have h1 := (hwf l hlen).1
          rw [hpar] at h1
          simp [parentLt] at h1
          omega


theorem connect_count (connect : String → Except TError Connection) (σ : Nat) (p : Peer) :
    (p.Connect connect σ).2.2 = σ + 1 := by
  rw [Peer.Connect]
  cases connect p.hostPort with
  | error e => rfl
  | ok c =>
    rcases h2 : p.AddOutboundConnection c with ⟨eopt, p2⟩
    simp only [h2]
    cases eopt <;> rfl

theorem getActive_eq_filter (p : Peer) :
    p.getActive = (p.inboundConnections ++ p.outboundConnections).filter Connection.IsActive := by
  rw [Peer.getActive, Peer.runWithConnections]
  simp

/-- C2: if at least one inbound or outbound connection reports active,
`GetConnection` returns one of the active connections (chosen by the random
source from the active set) and never invokes `Connect` — peer state and
the connect-invocation counter are unchanged; if no connection reports
active, `GetConnection` is exactly one `Connect` call: the counter increases
by exactly one and the result, error exactly when `Connect` fails, is
`Connect`'s result. -/
theorem c2_getConnection_reuse (connect : String → Except TError Connection)
    (r σ : Nat) (p : Peer) :
    ((∃ c ∈ p.inboundConnections ++ p.outboundConnections, c.IsActive = true) →
       p.GetConnection connect r σ = (Except.ok (randConn p.getActive r), p, σ) ∧
       randConn p.getActive r ∈ p.getActive ∧
       randConn p.getActive r ∈ p.inboundConnections ++ p.outboundConnections ∧
       (randConn p.getActive r).IsActive = true) ∧
    ((∀ c ∈ p.inboundConnections ++ p.outboundConnections, c.IsActive = false) →
       p.GetConnection connect r σ = p.Connect connect σ ∧
       (p.GetConnection connect r σ).2.2 = σ + 1) := by
  constructor
  · rintro ⟨c, hc, hcact⟩
    have hmem : c ∈ p.getActive := by
      rw [getActive_eq_filter]
      exact List.mem_filter.mpr ⟨hc, hcact⟩
    have hlen : 0 < p.getActive.length := List.length_pos.mpr (by
      intro he
      rw [he] at hmem
      cases hmem)
    have hr : randConn p.getActive r ∈ p.getActive := by
      rw [randConn]
      exact getD_mem _ _ _ (Nat.mod_lt _ hlen)
    have hrf := List.mem_filter.mp
      (show randConn p.getActive r ∈
          (p.inboundConnections ++ p.outboundConnections).filter Connection.IsActive by
        rw [← getActive_eq_filter]
        exact hr)
    refine ⟨?_, hr, hrf.1, hrf.2⟩
    rw [Peer.GetConnection, if_pos hlen]
  · intro hall
    have hemp : p.getActive = [] := by
      rw [getActive_eq_filter]
      refine List.filter_eq_nil_iff.mpr ?_
      intro c hc
      simp [hall c hc]
    have hlen : ¬ 0 < p.getActive.length := by
      rw [hemp]
      simp
    refine ⟨?_, ?_⟩
    · rw [Peer.GetConnection, if_neg hlen]
    · rw [Peer.GetConnection, if_neg hlen]
      exact connect_count connect σ p

/-- C4: `AddInboundConnection` and `AddOutboundConnection` return the
`ErrInvalidConnectionState` error if and only if the connection's lifecycle
state is neither active nor start-close at registration time; on that error
the peer's connection lists are unchanged, and on success the connection is
appended to the corresponding list. -/
theorem c4_add_connection_state (p : Peer) (c : Connection) :
    ((p.AddInboundConnection c).1 = some TError.ErrInvalidConnectionState ↔
       ¬(c.readState = ConnectionState.connectionActive ∨
         c.readState = ConnectionState.connectionStartClose)) ∧
    (¬(c.readState = ConnectionState.connectionActive ∨
        c.readState = ConnectionState.connectionStartClose) →
       (p.AddInboundConnection c).2 = p) ∧
    ((c.readState = ConnectionState.connectionActive ∨
        c.readState = ConnectionState.connectionStartClose) →
       (p.AddInboundConnection c).1 = none ∧
       (p.AddInboundConnection c).2 =
         { p with inboundConnections := p.inboundConnections ++ [c] }) ∧
    ((p.AddOutboundConnection c).1 = some TError.ErrInvalidConnectionState ↔
       ¬(c.readState = ConnectionState.connectionActive ∨
         c.readState = ConnectionState.connectionStartClose)) ∧
    (¬(c.readState = ConnectionState.connectionActive ∨
        c.readState = ConnectionState.connectionStartClose) →
       (p.AddOutboundConnection c).2 = p) ∧
    ((c.readState = ConnectionState.connectionActive ∨
        c.readState = ConnectionState.connectionStartClose) →
       (p.AddOutboundConnection c).1 = none ∧
       (p.AddOutboundConnection c).2 =
         { p with outboundConnections := p.outboundConnections ++ [c] }) := by
  by_cases h : c.readState = ConnectionState.connectionActive ∨
      c.readState = ConnectionState.connectionStartClose
  · simp [Peer.AddInboundConnection, Peer.AddOutboundConnection, h]
  · simp [Peer.AddInboundConnection, Peer.AddOutboundConnection, h]

/-- C7: `PeerList.Close` leaves the world — in particular the list's map
and ordered sequence — unchanged and invokes `Close` on every peer indexed
at the time of the call, each appearing in the event list with all of its
inbound and outbound connections; `Peer.Close` closes every inbound
connection and then every outbound connection and removes nothing from the
peer's lists. -/
theorem c7_close_frame (w : World) (l : Nat) (p : Peer) :
    (closePeerList w l).2 = w ∧
    (∀ pid ∈ (w.getList l).peers,
       (pid, (w.peerStore.getD pid defaultPeer).inboundConnections ++
             (w.peerStore.getD pid defaultPeer).outboundConnections) ∈
         (closePeerList w l).1) ∧
    (p.Close).1 = p.inboundConnections ++ p.outboundConnections ∧
    (p.Close).2 = p := by
  refine ⟨rfl, ?_, ?_, rfl⟩
  · intro pid hmem
    rw [closePeerList]
    refine List.mem_map.mpr ⟨pid, hmem, ?_⟩
    rw [Peer.Close, Peer.runWithConnections]
    simp
  · rw [Peer.Close, Peer.runWithConnections]
    simp

/-- C8: `BeginCall` first resolves a connection via `GetConnection`; if
that fails, the same error is returned; otherwise it forwards to the
connection's call-initiation operation with the given call options — or the
default ones when nil — and returns its result, an error exactly when the
call initiation fails. -/
theorem c8_beginCall_forwarding (connect : String → Except TError Connection)
    (beginCall : Connection → String → CallOptions → String → Except TError OutboundCall)
    (r σ : Nat) (p : Peer) (serviceName operationName : String)
    (callOptions : Option CallOptions) :
    (∀ e, (p.GetConnection connect r σ).1 = Except.error e →
       p.BeginCall connect beginCall r σ serviceName operationName callOptions =
         (Except.error e, (p.GetConnection connect r σ).2)) ∧
    (∀ conn, (p.GetConnection connect r σ).1 = Except.ok conn →
       (p.BeginCall connect beginCall r σ serviceName operationName callOptions).1 =
         beginCall conn serviceName (callOptions.getD defaultCallOptions) operationName ∧
       (p.BeginCall connect beginCall r σ serviceName operationName callOptions).2 =
         (p.GetConnection connect r σ).2) := by
  rcases hg : p.GetConnection connect r σ with ⟨res, p2, σ2⟩
  constructor
  · intro e he
    have hres : res = Except.error e := he
    subst hres
    simp [Peer.BeginCall, hg]
  · intro conn hc
    have hres : res = Except.ok conn := hc
    subst hres
    cases hb : beginCall conn serviceName (callOptions.getD defaultCallOptions) operationName with
    | error e => simp [Peer.BeginCall, hg, hb]
    | ok call => simp [Peer.BeginCall, hg, hb]


theorem addW_of_lookup (w : World) (l : Nat) (a : String) (p : Nat)
    (h : lookupA (w.getList l).peersByHostPort a = some p) : addW w l a = (p, w) := by
  rw [addW]
  simp only [addFuel, h]

/-- C1 (amended): for every address and any two `Add` calls issued against
lists of the same tree — lists whose parent chains reach the same root —
both calls return the identical Peer instance.  Amendment forced by the
counterexample: a sibling derived from the root list has no parent and is
itself a root, so it is not in its creator's tree and creates its own Peer;
siblings derived from non-root lists do share the creator's root and
resolve to the root-owned Peer. -/
theorem c1_add_same_root_amended (w : World) (l1 l2 : Nat) (a : String)
    (hr : Reachable w) (h1 : l1 < w.lists.length) (h2 : l2 < w.lists.length)
    (hroot : rootOf w l1 = rootOf w l2) :
    (addW (addW w l1 a).2 l2 a).1 = (addW w l1 a).1 := by
  have hwf := reachable_WF hr
  have hwf1 : WF (addW w l1 a).2 := addW_WF w l1 a hwf h1
  have hlen1 : l2 < (addW w l1 a).2.lists.length := by
    rw [addW, addFuel_lists_length]
    exact h2
  have hbind : lookupA (((addW w l1 a).2).getList (rootOf w l1)).peersByHostPort a =
      some (addW w l1 a).1 :=
    addFuel_root_binding (l1 + 1) w l1 a hwf (by omega) h1
  have hroot2 : rootOf (addW w l1 a).2 l2 = rootOf w l2 :=
    rootOf_congr w _ (fun j => addFuel_parent (l1 + 1) w l1 a j) l2
  refine addFuel_result_of_root (l2 + 1) (addW w l1 a).2 l2 a (addW w l1 a).1 hwf1
    (by omega) hlen1 ?_
  rw [hroot2, ← hroot]
  exact hbind

/-- C1 counterexample: in a world with a root list (index 0) and a sibling
derived from that root (index 1), `Add "a"` against the root and then
`Add "a"` against the sibling return different Peer instances — the sibling
of the root creates a second Peer for the same address, contradicting the
claim as stated. -/
theorem c1_sibling_of_root_counterexample :
    (addW (addW (newSiblingW (newPeerListW emptyWorld).2 0).2 0 "a").2 1 "a").1 ≠
      (addW (newSiblingW (newPeerListW emptyWorld).2 0).2 0 "a").1 := by decide

/-- C1 witness: in a concrete reachable world with a root list and a child
list, both hypotheses of the amended theorem hold and adding the same
address through the child and then the root yields the identical Peer. -/
theorem c1_add_same_root_witness :
    (addW (addW (newChildW (newPeerListW emptyWorld).2 0).2 0 "a").2 1 "a").1 =
      (addW (newChildW (newPeerListW emptyWorld).2 0).2 0 "a").1 :=
  c1_add_same_root_amended (newChildW (newPeerListW emptyWorld).2 0).2 0 1 "a"
    (Reachable.newChl (Reachable.newList Reachable.init) (by decide))
    (by decide) (by decide) (by decide)

/-- C5: for a child list whose parent is `q`, every address indexed by the
child is also present in the parent's index mapping to the identical Peer
instance (the child's peer set is a subset of the parent's), and `GetOrAdd`
on the parent returns that same Peer without modifying the world. -/
theorem c5_child_subset (w : World) (l q p : Nat) (a : String)
    (hr : Reachable w) (hl : l < w.lists.length)
    (hq : (w.getList l).parent = some q)
    (hlook : lookupA (w.getList l).peersByHostPort a = some p) :
    lookupA (w.getList q).peersByHostPort a = some p ∧ getOrAddW w q a = (p, w) := by
  have hwf := reachable_WF hr
  have hpar := (hwf l hl).2.2.2.2 q hq (a, p) (lookupA_mem hlook)
  refine ⟨hpar, ?_⟩
  rw [getOrAddW]
  simp only [hpar]

/-- C6: `Add` is idempotent — a second `Add` of the same address on the
same list returns the Peer of the first call and changes nothing — and
`GetOrAdd` coincides with `Add` on every input. -/
theorem c6_add_idempotent (w : World) (l : Nat) (a : String)
    (hr : Reachable w) (hl : l < w.lists.length) :
    addW (addW w l a).2 l a = addW w l a ∧ getOrAddW w l a = addW w l a := by
  have hwf := reachable_WF hr
  refine ⟨?_, getOrAddW_eq_addW w l a⟩
  have hbind : lookupA (((addW w l a).2).getList l).peersByHostPort a =
      some (addW w l a).1 :=
    addFuel_lookup_self (l + 1) w l a hwf (by omega) hl
  rw [addW_of_lookup _ _ _ _ hbind]

/-- C10: in every reachable world, for every list: the ordered peer
sequence holds exactly the values of the address-to-peer map, contains no
duplicate entries, every mapped peer is stored under the host:port it was
created with, and the sequence length equals the map size. -/
theorem c10_index_invariant (w : World) (l : Nat)
    (hr : Reachable w) (hl : l < w.lists.length) :
    (∀ pid, pid ∈ (w.getList l).peers ↔
       ∃ a, (a, pid) ∈ (w.getList l).peersByHostPort) ∧
    (w.getList l).peers.Nodup ∧
    (∀ a pid, (a, pid) ∈ (w.getList l).peersByHostPort →
       (w.peerStore.getD pid defaultPeer).hostPort = a) ∧
    (w.getList l).peers.length = (w.getList l).peersByHostPort.length := by
  have hwf := reachable_WF hr
  have hold := hwf l hl
  have hvals := hold.2.2.1
  refine ⟨?_, ?_, ?_, ?_⟩
  · intro pid
    constructor
    · intro hmem
      have hmem2 : pid ∈ (w.getList l).peersByHostPort.map Prod.snd := by
        rw [hvals]
        exact List.mem_reverse.mpr hmem
      rcases List.mem_map.mp hmem2 with ⟨ap, hap, hap2⟩
      refine ⟨ap.1, ?_⟩
      rw [← hap2]
      exact hap
    · rintro ⟨a, hmem⟩
      have hmem2 : pid ∈ (w.getList l).peersByHostPort.map Prod.snd :=
        List.mem_map.mpr ⟨(a, pid), hmem, rfl⟩
      rw [hvals] at hmem2
      exact List.mem_reverse.mp hmem2
  · have hpairs : (w.getList l).peersByHostPort.Nodup := List.Nodup.of_map _ hold.2.1
    have hnodupvals : ((w.getList l).peersByHostPort.map Prod.snd).Nodup := by
      refine List.Nodup.map_on ?_ hpairs
      intro x hx y hy hxy
      have hx1 := hold.2.2.2.1 x hx
      have hy1 := hold.2.2.2.1 y hy
      have hfst : x.1 = y.1 := by
        rw [← hx1.2, ← hy1.2, hxy]
      rcases x with ⟨x1, x2⟩
      rcases y with ⟨y1, y2⟩
      simp only at hxy hfst
      rw [hxy, hfst]
    rw [hvals] at hnodupvals
    exact List.nodup_reverse.mp hnodupvals
  · intro a pid hmem
    exact (hold.2.2.2.1 (a, pid) hmem).2
  · have hlenv := congrArg List.length hvals
    simp at hlenv
    omega

/-- C3: `Get` fails with the `ErrNoPeers` error exactly when the list's
indexed peer sequence is empty, leaving the world unchanged (no side
effects); on a non-empty sequence it returns, without error, the peer chosen
by the selection strategy applied to the current ordered sequence. -/
theorem c3_get_empty_error (choose : List Nat → Nat) (w : World) (l : Nat) :
    ((getW choose w l).1 = Except.error TError.ErrNoPeers ↔ (w.getList l).peers = []) ∧
    ((w.getList l).peers ≠ [] →
       (getW choose w l).1 = Except.ok (choose (w.getList l).peers)) ∧
    (getW choose w l).2 = w := by
  rw [getW]
  by_cases h : (w.getList l).peers.length = 0
  · have he : (w.getList l).peers = [] := List.length_eq_zero.mp h
    simp [h, he]
  · have hne : (w.getList l).peers ≠ [] := by
      intro hc
      rw [hc] at h
      exact h rfl
    simp [h, hne]


/-- C2 witness: a peer with one active inbound connection reuses it without
connecting, and a peer with only a closed connection invokes the channel's
Connect capability exactly once. -/
theorem c2_getConnection_witness :
    (Peer.GetConnection (fun _ => Except.error (TError.external 0)) 0 0
        ⟨"h", [⟨1, ConnectionState.connectionActive⟩], []⟩ =
      (Except.ok (randConn (Peer.getActive ⟨"h", [⟨1, ConnectionState.connectionActive⟩], []⟩) 0),
       ⟨"h", [⟨1, ConnectionState.connectionActive⟩], []⟩, 0)) ∧
    (Peer.GetConnection (fun _ => Except.error (TError.external 0)) 0 0
        ⟨"h", [⟨2, ConnectionState.connectionClosed⟩], []⟩).2.2 = 0 + 1 :=
  ⟨((c2_getConnection_reuse (fun _ => Except.error (TError.external 0)) 0 0
      ⟨"h", [⟨1, ConnectionState.connectionActive⟩], []⟩).1
      ⟨⟨1, ConnectionState.connectionActive⟩, by decide, by decide⟩).1,
   ((c2_getConnection_reuse (fun _ => Except.error (TError.external 0)) 0 0
      ⟨"h", [⟨2, ConnectionState.connectionClosed⟩], []⟩).2
      (by decide)).2⟩

/-- C3 witness: `Get` on a freshly created empty root list fails with
`ErrNoPeers`, and succeeds with the strategy's choice after one `Add`. -/
theorem c3_get_witness :
    ((getW (fun ps => ps.getD 0 0) (newPeerListW emptyWorld).2 0).1 =
       Except.error TError.ErrNoPeers) ∧
    ((getW (fun ps => ps.getD 0 0) (addW (newPeerListW emptyWorld).2 0 "a").2 0).1 =
       Except.ok ((fun ps => ps.getD 0 0)
         ((World.getList (addW (newPeerListW emptyWorld).2 0 "a").2 0).peers))) :=
  ⟨(c3_get_empty_error (fun ps => ps.getD 0 0) (newPeerListW emptyWorld).2 0).1.mpr (by decide),
   (c3_get_empty_error (fun ps => ps.getD 0 0)
      (addW (newPeerListW emptyWorld).2 0 "a").2 0).2.1 (by decide)⟩

/-- C4 witness: registering a closed connection fails with
`ErrInvalidConnectionState` while registering an active or start-close
connection succeeds. -/
theorem c4_add_connection_witness :
    ((Peer.AddInboundConnection ⟨"h", [], []⟩ ⟨1, ConnectionState.connectionClosed⟩).1 =
       some TError.ErrInvalidConnectionState) ∧
    ((Peer.AddInboundConnection ⟨"h", [], []⟩ ⟨1, ConnectionState.connectionActive⟩).1 = none) ∧
    ((Peer.AddOutboundConnection ⟨"h", [], []⟩ ⟨1, ConnectionState.connectionStartClose⟩).1 = none) :=
  ⟨(c4_add_connection_state ⟨"h", [], []⟩ ⟨1, ConnectionState.connectionClosed⟩).1.mpr (by decide),
   ((c4_add_connection_state ⟨"h", [], []⟩ ⟨1, ConnectionState.connectionActive⟩).2.2.1
      (by decide)).1,
   ((c4_add_connection_state ⟨"h", [], []⟩
      ⟨1, ConnectionState.connectionStartClose⟩).2.2.2.2.2 (by decide)).1⟩

/-- C7 witness: closing a concrete one-list world leaves it unchanged and
the indexed peer's close event covers its inbound and outbound
connections. -/
theorem c7_close_witness :
    ((closePeerList ⟨[⟨none, [("a", 0)], [0]⟩],
        [⟨"a", [⟨1, ConnectionState.connectionActive⟩],
          [⟨2, ConnectionState.connectionClosed⟩]⟩]⟩ 0).2 =
      ⟨[⟨none, [("a", 0)], [0]⟩],
        [⟨"a", [⟨1, ConnectionState.connectionActive⟩],
          [⟨2, ConnectionState.connectionClosed⟩]⟩]⟩) ∧
    (0, ((World.peerStore ⟨[⟨none, [("a", 0)], [0]⟩],
        [⟨"a", [⟨1, ConnectionState.connectionActive⟩],
          [⟨2, ConnectionState.connectionClosed⟩]⟩]⟩).getD 0 defaultPeer).inboundConnections ++
       ((World.peerStore ⟨[⟨none, [("a", 0)], [0]⟩],
        [⟨"a", [⟨1, ConnectionState.connectionActive⟩],
          [⟨2, ConnectionState.connectionClosed⟩]⟩]⟩).getD 0 defaultPeer).outboundConnections) ∈
      (closePeerList ⟨[⟨none, [("a", 0)], [0]⟩],
        [⟨"a", [⟨1, ConnectionState.connectionActive⟩],
          [⟨2, ConnectionState.connectionClosed⟩]⟩]⟩ 0).1 :=
  ⟨(c7_close_frame ⟨[⟨none, [("a", 0)], [0]⟩],
      [⟨"a", [⟨1, ConnectionState.connectionActive⟩],
        [⟨2, ConnectionState.connectionClosed⟩]⟩]⟩ 0 defaultPeer).1,
   (c7_close_frame ⟨[⟨none, [("a", 0)], [0]⟩],
      [⟨"a", [⟨1, ConnectionState.connectionActive⟩],
        [⟨2, ConnectionState.connectionClosed⟩]⟩]⟩ 0 defaultPeer).2.1 0 (by decide)⟩

/-- C8 witness: with a channel that connects successfully and a
call-initiation that succeeds, `BeginCall` on a connection-less peer returns
the initiated call. -/
theorem c8_beginCall_witness :
    ((Peer.BeginCall (fun _ => Except.ok ⟨5, ConnectionState.connectionActive⟩)
        (fun _ _ _ _ => Except.ok ⟨7⟩) 0 0 ⟨"h", [], []⟩ "svc" "op" none).1 =
       Except.ok ⟨7⟩) ∧
    ((Peer.BeginCall (fun _ => Except.ok ⟨5, ConnectionState.connectionActive⟩)
        (fun _ _ _ _ => Except.ok ⟨7⟩) 0 0 ⟨"h", [], []⟩ "svc" "op" none).2 =
       (Peer.GetConnection (fun _ => Except.ok ⟨5, ConnectionState.connectionActive⟩) 0 0
         ⟨"h", [], []⟩).2) :=
  (c8_beginCall_forwarding (fun _ => Except.ok ⟨5, ConnectionState.connectionActive⟩)
    (fun _ _ _ _ => Except.ok ⟨7⟩) 0 0 ⟨"h", [], []⟩ "svc" "op" none).2
    ⟨5, ConnectionState.connectionActive⟩ rfl

/-- C10 witness: the invariant instantiated in a concrete reachable world
holding one root list with one added peer. -/
theorem c10_index_invariant_witness :
    (∀ pid, pid ∈ (World.getList (addW (newPeerListW emptyWorld).2 0 "a").2 0).peers ↔
       ∃ b, (b, pid) ∈ (World.getList (addW (newPeerListW emptyWorld).2 0 "a").2 0).peersByHostPort) ∧
    (World.getList (addW (newPeerListW emptyWorld).2 0 "a").2 0).peers.Nodup ∧
    (∀ b pid, (b, pid) ∈ (World.getList (addW (newPeerListW emptyWorld).2 0 "a").2 0).peersByHostPort →
       ((addW (newPeerListW emptyWorld).2 0 "a").2.peerStore.getD pid defaultPeer).hostPort = b) ∧
    (World.getList (addW (newPeerListW emptyWorld).2 0 "a").2 0).peers.length =
      (World.getList (addW (newPeerListW emptyWorld).2 0 "a").2 0).peersByHostPort.length :=
  c10_index_invariant (addW (newPeerListW emptyWorld).2 0 "a").2 0
    (Reachable.add (Reachable.newList Reachable.init) (by decide)) (by decide)


/-- C5 witness: in a concrete reachable world where an address was added
through a child list, the parent's index holds the identical Peer and the
parent's `GetOrAdd` returns it unchanged. -/
theorem c5_child_subset_witness :
    lookupA (World.getList (addW (newChildW (newPeerListW emptyWorld).2 0).2 1 "a").2
        0).peersByHostPort "a" = some 0 ∧
    getOrAddW (addW (newChildW (newPeerListW emptyWorld).2 0).2 1 "a").2 0 "a" =
      (0, (addW (newChildW (newPeerListW emptyWorld).2 0).2 1 "a").2) :=
  c5_child_subset (addW (newChildW (newPeerListW emptyWorld).2 0).2 1 "a").2 1 0 0 "a"
    (Reachable.add (Reachable.newChl (Reachable.newList Reachable.init) (by decide)) (by decide))
    (by decide) (by decide) (by decide)

/-- C6 witness: two sequential `Add` calls of the same address on a
concrete root list return the identical result and world. -/
theorem c6_add_idempotent_witness :
    (addW (addW (newPeerListW emptyWorld).2 0 "a").2 0 "a" =
       addW (newPeerListW emptyWorld).2 0 "a") ∧
    (getOrAddW (newPeerListW emptyWorld).2 0 "a" = addW (newPeerListW emptyWorld).2 0 "a") :=
  c6_add_idempotent (newPeerListW emptyWorld).2 0 "a"
    (Reachable.newList Reachable.init) (by decide)

end TChan